import Mathlib

/-!
Verification development for FindEmailCSV (src/FindEmailCSV.py).

The program's non-UI core is embedded shallowly:
- SHA-256 over byte lists models `hashlib.sha256(...).hexdigest()`;
- `pyStrip` models Python `str.strip()` on ASCII whitespace;
- a backtracking matcher models `re.findall` for the fixed email pattern
  `[a-zA-Z0-9._-]+@[a-zA-Z0-9._-]+\.[a-zA-Z0-9_-]{2,}`;
- the app's methods (`generate_hash`, `verify_hash`, `open_file`,
  `find_emails`, `save_results`) become pure state-passing functions.
-/

namespace FindEmailCSV

/-! ### SHA-256 (FIPS 180-4), modelling `hashlib.sha256(bytes).hexdigest()` -/

def M32 : Nat := 4294967296

def mask32 : Nat := 4294967295

def rotr32 (n x : Nat) : Nat := (x >>> n) ||| ((x <<< (32 - n)) &&& mask32)

def ch32 (x y z : Nat) : Nat := (x &&& y) ^^^ ((x ^^^ mask32) &&& z)

def maj32 (x y z : Nat) : Nat := (x &&& y) ^^^ (x &&& z) ^^^ (y &&& z)

def bigS0 (x : Nat) : Nat := rotr32 2 x ^^^ rotr32 13 x ^^^ rotr32 22 x

def bigS1 (x : Nat) : Nat := rotr32 6 x ^^^ rotr32 11 x ^^^ rotr32 25 x

def smallS0 (x : Nat) : Nat := rotr32 7 x ^^^ rotr32 18 x ^^^ (x >>> 3)

def smallS1 (x : Nat) : Nat := rotr32 17 x ^^^ rotr32 19 x ^^^ (x >>> 10)

def sha256K : List Nat :=
  [1116352408, 1899447441, 3049323471, 3921009573, 961987163,
   1508970993, 2453635748, 2870763221, 3624381080, 310598401,
   607225278, 1426881987, 1925078388, 2162078206, 2614888103,
   3248222580, 3835390401, 4022224774, 264347078, 604807628,
   770255983, 1249150122, 1555081692, 1996064986, 2554220882,
   2821834349, 2952996808, 3210313671, 3336571891, 3584528711,
   113926993, 338241895, 666307205, 773529912, 1294757372,
   1396182291, 1695183700, 1986661051, 2177026350, 2456956037,
   2730485921, 2820302411, 3259730800, 3345764771, 3516065817,
   3600352804, 4094571909, 275423344, 430227734, 506948616,
   659060556, 883997877, 958139571, 1322822218, 1537002063,
   1747873779, 1955562222, 2024104815, 2227730452, 2361852424,
   2428436474, 2756734187, 3204031479, 3329325298]

structure H8 where
  a : Nat
  b : Nat
  c : Nat
  d : Nat
  e : Nat
  f : Nat
  g : Nat
  h : Nat
deriving DecidableEq

def sha256H0 : H8 :=
  ⟨1779033703, 3144134277, 1013904242, 2773480762,
   1359893119, 2600822924, 528734635, 1541459225⟩

def lenBytes8 (n : Nat) : List Nat :=
  [(n >>> 56) &&& 255, (n >>> 48) &&& 255, (n >>> 40) &&& 255, (n >>> 32) &&& 255,
   (n >>> 24) &&& 255, (n >>> 16) &&& 255, (n >>> 8) &&& 255, n &&& 255]

def padMessage (msg : List Nat) : List Nat :=
  msg ++ 128 :: List.replicate ((119 - msg.length % 64) % 64) 0 ++ lenBytes8 (8 * msg.length)

def toWords : List Nat → List Nat
  | b0 :: b1 :: b2 :: b3 :: rest => (((b0 * 256 + b1) * 256 + b2) * 256 + b3) :: toWords rest
  | _ => []

def toBlocks16 : List Nat → List (List Nat)
  | w0 :: w1 :: w2 :: w3 :: w4 :: w5 :: w6 :: w7 :: w8 :: w9 :: w10 :: w11 :: w12 :: w13 :: w14 :: w15 :: rest =>
      [w0, w1, w2, w3, w4, w5, w6, w7, w8, w9, w10, w11, w12, w13, w14, w15] :: toBlocks16 rest
  | _ => []

def scheduleRev : List Nat → Nat → List Nat
  | rev, 0 => rev
  | rev, n + 1 =>
      scheduleRev (((smallS1 (rev.getD 1 0) + rev.getD 6 0 + smallS0 (rev.getD 14 0) + rev.getD 15 0) % M32) :: rev) n

def sha256Round (s : H8) (k w : Nat) : H8 :=
  let t1 := (s.h + bigS1 s.e + ch32 s.e s.f s.g + k + w) % M32
  let t2 := (bigS0 s.a + maj32 s.a s.b s.c) % M32
  ⟨(t1 + t2) % M32, s.a, s.b, s.c, (s.d + t1) % M32, s.e, s.f, s.g⟩

def compressBlock (s : H8) (block : List Nat) : H8 :=
  let w := (scheduleRev block.reverse 48).reverse
  let t := (sha256K.zip w).foldl (fun st p => sha256Round st p.1 p.2) s
  ⟨(s.a + t.a) % M32, (s.b + t.b) % M32, (s.c + t.c) % M32, (s.d + t.d) % M32,
   (s.e + t.e) % M32, (s.f + t.f) % M32, (s.g + t.g) % M32, (s.h + t.h) % M32⟩

def sha256Words (msg : List Nat) : List Nat :=
  let t := (toBlocks16 (toWords (padMessage msg))).foldl compressBlock sha256H0
  [t.a, t.b, t.c, t.d, t.e, t.f, t.g, t.h]

def hexDigit : Nat → Char
  | 0 => '0' | 1 => '1' | 2 => '2' | 3 => '3' | 4 => '4' | 5 => '5' | 6 => '6' | 7 => '7'
  | 8 => '8' | 9 => '9' | 10 => 'a' | 11 => 'b' | 12 => 'c' | 13 => 'd' | 14 => 'e' | _ => 'f'

def hexWord (w : Nat) : List Char :=
  [hexDigit ((w >>> 28) &&& 15), hexDigit ((w >>> 24) &&& 15), hexDigit ((w >>> 20) &&& 15),
   hexDigit ((w >>> 16) &&& 15), hexDigit ((w >>> 12) &&& 15), hexDigit ((w >>> 8) &&& 15),
   hexDigit ((w >>> 4) &&& 15), hexDigit (w &&& 15)]

def sha256hexL (msg : List Nat) : List Char :=
  (sha256Words msg).foldr (fun w acc => hexWord w ++ acc) []

def sha256hex (msg : List Nat) : String :=
  (sha256hexL msg).asString

/-! ### Python `str.strip()` (ASCII whitespace) -/

def isPySpace (c : Char) : Bool :=
  c == ' ' || c == '\t' || c == '\n' || c == '\x0d' || c == '\x0b' || c == '\x0c'

def pyStripL (l : List Char) : List Char :=
  ((l.dropWhile isPySpace).reverse.dropWhile isPySpace).reverse

def pyStrip (s : String) : String :=
  (pyStripL s.data).asString

/-! ### The hash sidecar workflow

`generate_hash` (src lines 118-127) writes `<path>.sha256` containing a
header line `"Hash sha256 for file: " + path + "\n"` followed by the hex
digest, with no trailing newline, overwriting any existing file.

`verify_hash` (src lines 146-155) recomputes the digest of the file's
bytes and compares it with `hash_file.read().strip()` — the ENTIRE sidecar
content, whitespace-stripped. -/

def sidecarContent (path : String) (digest : String) : String :=
  "Hash sha256 for file: " ++ path ++ "\n" ++ digest

def generate_hash (fs : String → Option String) (path : String) (fileBytes : List Nat) :
    String → Option String :=
  fun q =>
    if q = path ++ ".sha256" then some (sidecarContent path (sha256hex fileBytes))
    else fs q

def verify_hash (fileBytes : List Nat) (sidecar : String) : Bool :=
  sha256hex fileBytes == pyStrip sidecar

/-! ### `open_file` (src lines 94-105)

After a file is selected: if `<path>.sha256` exists, `verify_hash` gates the
workflow — on mismatch an error box is shown and the method returns without
starting the extraction thread; otherwise the background extraction starts. -/

structure OpenResult where
  startedExtraction : Bool
  tamperWarning : Bool
deriving DecidableEq

def open_file (selection : Option (List Nat)) (sidecar : Option String) : OpenResult :=
  match selection with
  | none => ⟨false, false⟩
  | some fileBytes =>
    match sidecar with
    | none => ⟨true, false⟩
    | some sc => if verify_hash fileBytes sc then ⟨true, false⟩ else ⟨false, true⟩

/-! ### The email regular expression and `re.findall`

Pattern (src line 179): `[a-zA-Z0-9._-]+@[a-zA-Z0-9._-]+\.[a-zA-Z0-9_-]{2,}`.
The matcher below implements Python's backtracking semantics for this regex
shape: greedy character-class quantifiers that backtrack by shortening, and
`re.findall`'s left-to-right non-overlapping scan. -/

def localChar (c : Char) : Bool :=
  c.isAlpha || c.isDigit || c == '.' || c == '_' || c == '-'

def tldChar (c : Char) : Bool :=
  c.isAlpha || c.isDigit || c == '_' || c == '-'

inductive Re where
  | cls : (Char → Bool) → Re
  | cat : Re → Re → Re
  | plus : (Char → Bool) → Re
  | rep2 : (Char → Bool) → Re

def emailRe : Re :=
  .cat (.plus localChar)
    (.cat (.cls (fun c => c == '@'))
      (.cat (.plus localChar)
        (.cat (.cls (fun c => c == '.'))
          (.rep2 tldChar))))

/-- Greedy backtracking over consumption lengths: try `hi, hi - 1, ..., lo`
characters dropped from `s`, returning the first continuation success. -/
def tryLens (k : List Char → Option (List Char)) (s : List Char) (lo : Nat) :
    Nat → Option (List Char)
  | 0 => if lo = 0 then k s else none
  | hi + 1 =>
    if hi + 1 < lo then none
    else
      match k (s.drop (hi + 1)) with
      | some r => some r
      | none => tryLens k s lo hi

def runLen (p : Char → Bool) (s : List Char) : Nat :=
  (s.takeWhile p).length

/-- Backtracking matcher in continuation-passing style: try to match `r`
against a front portion of `s` and hand the remainder to `k`. -/
def matchRe : Re → List Char → (List Char → Option (List Char)) → Option (List Char)
  | .cls p, s, k =>
    match s with
    | [] => none
    | c :: rest => if p c then k rest else none
  | .cat r1 r2, s, k => matchRe r1 s (fun s1 => matchRe r2 s1 k)
  | .plus p, s, k => tryLens k s 1 (runLen p s)
  | .rep2 p, s, k => tryLens k s 2 (runLen p s)

/-- `re.findall` scan: at each position try a match; on success emit the
matched text and continue after it, otherwise advance one character. -/
def scanAux : Nat → List Char → List (List Char)
  | 0, _ => []
  | _ + 1, [] => []
  | fuel + 1, c :: cs =>
    match matchRe emailRe (c :: cs) some with
    | some rem =>
      if rem.length < (c :: cs).length then
        (c :: cs).take ((c :: cs).length - rem.length) :: scanAux fuel rem
      else
        scanAux fuel cs
    | none => scanAux fuel cs

def pyFindallL (chunkText : String) : List (List Char) :=
  scanAux chunkText.data.length chunkText.data

/-- Language semantics of the regex fragment. -/
inductive Accepts : Re → List Char → Prop where
  | cls : ∀ {p : Char → Bool} {c : Char}, p c = true → Accepts (.cls p) [c]
  | cat : ∀ {r1 r2 : Re} {u v : List Char},
      Accepts r1 u → Accepts r2 v → Accepts (.cat r1 r2) (u ++ v)
  | plus : ∀ {p : Char → Bool} {l : List Char},
      l ≠ [] → (∀ c ∈ l, p c = true) → Accepts (.plus p) l
  | rep2 : ∀ {p : Char → Bool} {l : List Char},
      2 ≤ l.length → (∀ c ∈ l, p c = true) → Accepts (.rep2 p) l

/-! ### `find_emails` (src lines 176-201)

`self.emails` is reset to `[]` only after `pd.read_csv` succeeds; each chunk's
matches are appended; after the loop the list is deduplicated via
`list(set(...))`. An exception thrown while iterating chunks is caught, the
error is surfaced, and `self.emails` is left holding whatever was accumulated.
The input is modelled as either an open-time error or a list of chunk fetch
results, each a chunk's textual representation or a chunk-level error. -/

inductive RunOutcome where
  | success : Nat → RunOutcome
  | failure : String → RunOutcome
deriving DecidableEq

def processChunks (acc : List (List Char)) :
    List (Except String String) → List (List Char) × RunOutcome
  | [] => ((acc.dedup), .success acc.dedup.length)
  | .ok c :: rest => processChunks (acc ++ pyFindallL c) rest
  | .error e :: _ => (acc, .failure e)

def find_emails (prior : List (List Char))
    (input : Except String (List (Except String String))) :
    List (List Char) × RunOutcome :=
  match input with
  | .error e => (prior, .failure e)
  | .ok chunks => processChunks [] chunks

/-- The deduplicated result of a successful run over the given chunk texts. -/
def findEmailsL (chunks : List String) : List (List Char) :=
  (chunks.foldl (fun acc c => acc ++ pyFindallL c) []).dedup

/-! ### `save_results` (src lines 221-235) -/

structure SaveResult where
  wrote : Option (String × String)
  message : String
  emailsAfter : List (List Char)
deriving DecidableEq

def joinNl : List (List Char) → List Char
  | [] => []
  | [x] => x
  | x :: xs => x ++ '\n' :: joinNl xs

def save_results (emails : List (List Char)) (chosen : Option String) : SaveResult :=
  match emails with
  | [] => ⟨none, "No emails to save.", emails⟩
  | _ =>
    match chosen with
    | none => ⟨none, "", emails⟩
    | some p => ⟨some (p, (joinNl emails).asString), "Results saved to " ++ p, emails⟩

/-! ### Splitting text into lines (used to talk about the sidecar's lines) -/

def consHead (c : Char) : List (List Char) → List (List Char)
  | [] => [[c]]
  | l :: ls => (c :: l) :: ls

def splitLinesL : List Char → List (List Char)
  | [] => [[]]
  | c :: rest => if c == '\n' then [] :: splitLinesL rest else consHead c (splitLinesL rest)

end FindEmailCSV

namespace FindEmailCSV

/-- Sanity check against the FIPS 180-4 test vector for the message "abc". -/
theorem sha256_abc :
    sha256hex [97, 98, 99] = "ba7816bf8f01cfea414140de5dae2223b00361a396177a9cb410ff61f20015ad" := by
  decide

/-! ### Soundness of the backtracking matcher w.r.t. the regex language -/

theorem tryLens_eq_some {k : List Char → Option (List Char)} {s : List Char} {lo : Nat} :
    ∀ {hi : Nat} {out : List Char}, tryLens k s lo hi = some out →
      ∃ n, lo ≤ n ∧ n ≤ hi ∧ k (s.drop n) = some out := by
  intro hi
  induction hi with
  | zero =>
    intro out h
    unfold tryLens at h
    split at h
    · exact ⟨0, by omega, Nat.le_refl 0, by simpa using h⟩
    · exact absurd h (by simp)
  | succ m ih =>
    intro out h
    unfold tryLens at h
    split at h
    · exact absurd h (by simp)
    · cases hk : k (s.drop (m + 1)) with
      | some r =>
        rw [hk] at h
        exact ⟨m + 1, by omega, Nat.le_refl _, by rw [hk]; exact h⟩
      | none =>
        rw [hk] at h
        obtain ⟨n, h1, h2, h3⟩ := ih h
        exact ⟨n, h1, Nat.le_succ_of_le h2, h3⟩

theorem runLen_le_length (p : Char → Bool) (s : List Char) : runLen p s ≤ s.length := by
  induction s with
  | nil => exact Nat.le_refl 0
  | cons a as ih =>
    unfold runLen at ih ⊢
    rw [List.takeWhile_cons]
    split
    · simpa using Nat.succ_le_succ ih
    · exact Nat.zero_le _

theorem mem_take_runLen {p : Char → Bool} :
    ∀ (s : List Char) (n : Nat), n ≤ runLen p s → ∀ c ∈ s.take n, p c = true := by
  intro s
  induction s with
  | nil =>
    intro n _ c hc
    simp at hc
  | cons a as ih =>
    intro n hn c hc
    cases n with
    | zero => simp at hc
    | succ m =>
      unfold runLen at hn
      rw [List.takeWhile_cons] at hn
      by_cases hp : p a = true
      · rw [if_pos hp] at hn
        rw [List.take_succ_cons] at hc
        rcases List.mem_cons.mp hc with rfl | hc'
        · exact hp
        · exact ih m (by simpa using Nat.le_of_succ_le_succ hn) c hc'
      · rw [if_neg hp] at hn
        simp at hn

theorem matchRe_sound :
    ∀ (r : Re) (s : List Char) (k : List Char → Option (List Char)) (out : List Char),
      matchRe r s k = some out →
      ∃ u v, s = u ++ v ∧ Accepts r u ∧ k v = some out := by
  intro r
  induction r with
  | cls p =>
    intro s k out h
    cases s with
    | nil => simp [matchRe] at h
    | cons c rest =>
      simp only [matchRe] at h
      split at h
      · exact ⟨[c], rest, rfl, .cls (by assumption), h⟩
      · exact absurd h (by simp)
  | cat r1 r2 ih1 ih2 =>
    intro s k out h
    simp only [matchRe] at h
    obtain ⟨u1, v1, rfl, ha1, h1⟩ := ih1 s _ out h
    obtain ⟨u2, v2, rfl, ha2, h2⟩ := ih2 v1 k out h1
    exact ⟨u1 ++ u2, v2, (List.append_assoc u1 u2 v2).symm, .cat ha1 ha2, h2⟩
  | plus p =>
    intro s k out h
    simp only [matchRe] at h
    obtain ⟨n, h1, h2, h3⟩ := tryLens_eq_some h
    have hs : n ≤ s.length := Nat.le_trans h2 (runLen_le_length p s)
    refine ⟨s.take n, s.drop n, (List.take_append_drop n s).symm, ?_, h3⟩
    refine Accepts.plus ?_ (mem_take_runLen s n h2)
    intro hnil
    have hlen := congrArg List.length hnil
    rw [List.length_take, Nat.min_eq_left hs] at hlen
    simp at hlen
    omega
  | rep2 p =>
    intro s k out h
    simp only [matchRe] at h
    obtain ⟨n, h1, h2, h3⟩ := tryLens_eq_some h
    have hs : n ≤ s.length := Nat.le_trans h2 (runLen_le_length p s)
    refine ⟨s.take n, s.drop n, (List.take_append_drop n s).symm, ?_, h3⟩
    refine Accepts.rep2 ?_ (mem_take_runLen s n h2)
    rw [List.length_take, Nat.min_eq_left hs]
    exact h1

theorem scanAux_sound :
    ∀ (fuel : Nat) (s x : List Char), x ∈ scanAux fuel s → Accepts emailRe x := by
  intro fuel
  induction fuel with
  | zero =>
    intro s x hx
    simp [scanAux] at hx
  | succ m ih =>
    intro s x hx
    cases s with
    | nil => simp [scanAux] at hx
    | cons c cs =>
      simp only [scanAux] at hx
      cases hm : matchRe emailRe (c :: cs) some with
      | none =>
        rw [hm] at hx
        exact ih cs x hx
      | some rem =>
        rw [hm] at hx
        dsimp only at hx
        by_cases hlt : rem.length < (c :: cs).length
        · rw [if_pos hlt] at hx
          rcases List.mem_cons.mp hx with rfl | hx'
          · obtain ⟨u, v, hsv, hacc, hk⟩ := matchRe_sound emailRe (c :: cs) some rem hm
            have hv : v = rem := Option.some.inj hk
            rw [← hv] at hlt ⊢
            rw [hsv]
            have hlen : (u ++ v).length - v.length = u.length := by
              rw [List.length_append]
              omega
            rw [hlen, List.take_left]
            exact hacc
          · exact ih rem x hx'
        · rw [if_neg hlt] at hx
          exact ih cs x hx

theorem pyFindallL_sound (chunkText : String) (x : List Char) :
    x ∈ pyFindallL chunkText → Accepts emailRe x :=
  scanAux_sound chunkText.data.length chunkText.data x

/-! ### Membership in the accumulated, deduplicated result -/

theorem mem_foldl_scan (chunks : List String) :
    ∀ (acc : List (List Char)) (x : List Char),
      x ∈ chunks.foldl (fun a c => a ++ pyFindallL c) acc ↔
        x ∈ acc ∨ ∃ c ∈ chunks, x ∈ pyFindallL c := by
  induction chunks with
  | nil =>
    intro acc x
    simp
  | cons c cs ih =>
    intro acc x
    rw [List.foldl_cons, ih (acc ++ pyFindallL c) x]
    simp only [List.mem_append, List.mem_cons]
    constructor
    · rintro ((h | h) | ⟨d, hd, hx⟩)
      · exact Or.inl h
      · exact Or.inr ⟨c, Or.inl rfl, h⟩
      · exact Or.inr ⟨d, Or.inr hd, hx⟩
    · rintro (h | ⟨d, (rfl | hd), hx⟩)
      · exact Or.inl (Or.inl h)
      · exact Or.inl (Or.inr hx)
      · exact Or.inr ⟨d, hd, hx⟩

theorem mem_findEmailsL (chunks : List String) (x : List Char) :
    x ∈ findEmailsL chunks ↔ ∃ c ∈ chunks, x ∈ pyFindallL c := by
  unfold findEmailsL
  rw [List.mem_dedup, mem_foldl_scan]
  simp

/-! ### Characterizing `find_emails` runs -/

theorem processChunks_all_ok :
    ∀ (chunks : List String) (acc : List (List Char)),
      processChunks acc (chunks.map .ok) =
        ((chunks.foldl (fun a c => a ++ pyFindallL c) acc).dedup,
         .success (chunks.foldl (fun a c => a ++ pyFindallL c) acc).dedup.length) := by
  intro chunks
  induction chunks with
  | nil => intro acc; rfl
  | cons c cs ih =>
    intro acc
    rw [List.map_cons, List.foldl_cons]
    exact ih (acc ++ pyFindallL c)

theorem processChunks_mid_error :
    ∀ (chunks : List String) (acc : List (List Char)) (e : String)
      (rest : List (Except String String)),
      processChunks acc (chunks.map .ok ++ .error e :: rest) =
        (chunks.foldl (fun a c => a ++ pyFindallL c) acc, .failure e) := by
  intro chunks
  induction chunks with
  | nil => intro acc e rest; rfl
  | cons c cs ih =>
    intro acc e rest
    rw [List.map_cons, List.foldl_cons, List.cons_append]
    exact ih (acc ++ pyFindallL c) e rest

/-! ### The hex digest has no whitespace and is nonempty -/

theorem hexDigit_ne_nl (n : Nat) : hexDigit n ≠ '\n' := by
  unfold hexDigit
  split <;> decide

theorem mem_hexWord_ne_nl (w : Nat) : ∀ c ∈ hexWord w, c ≠ '\n' := by
  intro c hc
  simp only [hexWord, List.mem_cons, List.not_mem_nil, or_false] at hc
  rcases hc with rfl | rfl | rfl | rfl | rfl | rfl | rfl | rfl <;> exact hexDigit_ne_nl _

theorem sha256hexL_ne_nl (msg : List Nat) : ∀ c ∈ sha256hexL msg, c ≠ '\n' := by
  intro c hc
  simp only [sha256hexL, sha256Words, List.foldr_cons, List.foldr_nil, List.append_nil,
    List.mem_append] at hc
  rcases hc with hc | hc | hc | hc | hc | hc | hc | hc <;> exact mem_hexWord_ne_nl _ c hc

theorem sha256hexL_ne_nil (msg : List Nat) : sha256hexL msg ≠ [] := by
  simp [sha256hexL, sha256Words, hexWord]

/-! ### Splitting the sidecar into lines -/

theorem splitLinesL_no_nl : ∀ (u : List Char), '\n' ∉ u → splitLinesL u = [u] := by
  intro u
  induction u with
  | nil => intro _; rfl
  | cons c cs ih =>
    intro h
    have hc : ¬((c == '\n') = true) := by
      simp only [beq_iff_eq]
      intro hh
      exact h (hh ▸ List.mem_cons_self c cs)
    have hcs : '\n' ∉ cs := fun hh => h (List.mem_cons_of_mem c hh)
    unfold splitLinesL
    rw [if_neg hc, ih hcs]
    rfl

theorem splitLinesL_append (v : List Char) :
    ∀ (u : List Char), '\n' ∉ u → splitLinesL (u ++ '\n' :: v) = u :: splitLinesL v := by
  intro u
  induction u with
  | nil =>
    intro _
    rw [List.nil_append]
    simp [splitLinesL]
  | cons c cs ih =>
    intro h
    have hc : ¬((c == '\n') = true) := by
      simp only [beq_iff_eq]
      intro hh
      exact h (hh ▸ List.mem_cons_self c cs)
    have hcs : '\n' ∉ cs := fun hh => h (List.mem_cons_of_mem c hh)
    rw [List.cons_append]
    show splitLinesL (c :: (cs ++ '\n' :: v)) = (c :: cs) :: splitLinesL v
    simp only [splitLinesL]
    rw [if_neg hc, ih hcs]
    rfl

theorem string_data_append (s t : String) : (s ++ t).data = s.data ++ t.data := rfl

theorem sidecar_data_split (path : String) (fileBytes : List Nat) :
    (sidecarContent path (sha256hex fileBytes)).data
      = ("Hash sha256 for file: " ++ path).data ++ '\n' :: sha256hexL fileBytes := by
  show (("Hash sha256 for file: " ++ path).data ++ ['\n']) ++ sha256hexL fileBytes
      = ("Hash sha256 for file: " ++ path).data ++ '\n' :: sha256hexL fileBytes
  rw [List.append_assoc]
  rfl

theorem sidecar_getLast_ne_nl (path : String) (fileBytes : List Nat) :
    (sidecarContent path (sha256hex fileBytes)).data.getLast? ≠ some '\n' := by
  have h1 : (sidecarContent path (sha256hex fileBytes)).data
      = (("Hash sha256 for file: " ++ path).data ++ ['\n']) ++ sha256hexL fileBytes := rfl
  rw [h1, List.getLast?_append_of_ne_nil _ (sha256hexL_ne_nil fileBytes)]
  intro hcon
  have h2 := List.getLast?_eq_getLast_of_ne_nil (sha256hexL_ne_nil fileBytes)
  rw [h2] at hcon
  exact sha256hexL_ne_nl fileBytes _ (List.getLast_mem _) (Option.some.inj hcon)

/-! ### Claim theorems -/

/-- C1: the spec claims `writeDigest(p, computeDigest(p))` followed immediately by
`verifyDigest(p, sidecarPathOf(p))` returns true; evaluating the code on the file
`f.csv` with bytes "abc" shows the round-trip in fact returns false, because
`verify_hash` compares the digest against the whole sidecar content (header line
included) after stripping. The code contradicts its own docstrings here. -/
theorem C1_roundtrip_returns_false :
    verify_hash [97, 98, 99] (sidecarContent "f.csv" (sha256hex [97, 98, 99])) = false := by
  decide

/-- C2: the spec claims `verifyDigest` compares the recomputed digest, after
trimming whitespace, to the SECOND LINE of the sidecar and returns true exactly
on match. At the concrete input (file bytes "abc", sidecar as written by
`generate_hash`) the trimmed second line equals the recomputed digest, yet the
code returns false: it compares against the entire stripped file content. -/
theorem C2_second_line_matches_yet_code_false :
    pyStripL ((splitLinesL (sidecarContent "f.csv" (sha256hex [97, 98, 99])).data).getD 1 [])
        = sha256hexL [97, 98, 99]
    ∧ verify_hash [97, 98, 99] (sidecarContent "f.csv" (sha256hex [97, 98, 99])) = false := by
  decide

/-- C3 counterexample: the claim says the output contains EVERY substring of the
input matching the pattern. In the input "ab@cd.ef", the substring "b@cd.ef"
matches the pattern, but the output of the scan is only {"ab@cd.ef"}:
`re.findall` returns non-overlapping leftmost matches, not all matching
substrings. -/
theorem C3_counterexample :
    (∃ u v, ("ab@cd.ef" : String).data = u ++ ['b', '@', 'c', 'd', '.', 'e', 'f'] ++ v)
    ∧ Accepts emailRe ['b', '@', 'c', 'd', '.', 'e', 'f']
    ∧ ['b', '@', 'c', 'd', '.', 'e', 'f'] ∉ findEmailsL ["ab@cd.ef"] := by
  refine ⟨⟨['a'], [], by decide⟩, ?_, by decide⟩
  have h1 : Accepts (.plus localChar) ['b'] := .plus (by decide) (by decide)
  have h2 : Accepts (.cls (fun c => c == '@')) ['@'] := .cls (by decide)
  have h3 : Accepts (.plus localChar) ['c', 'd'] := .plus (by decide) (by decide)
  have h4 : Accepts (.cls (fun c => c == '.')) ['.'] := .cls (by decide)
  have h5 : Accepts (.rep2 tldChar) ['e', 'f'] := .rep2 (by decide) (by decide)
  exact h1.cat (h2.cat (h3.cat (h4.cat h5)))

/-- C3 amended: every string in the extraction output matches the email pattern
(soundness), and the output set consists exactly of the non-overlapping matches
produced by the `re.findall` scan over the chunk texts (completeness relative to
the scan, not relative to all matching substrings). -/
theorem C3_amended_sound_and_complete (chunks : List String) (x : List Char) :
    (x ∈ findEmailsL chunks → Accepts emailRe x)
    ∧ (x ∈ findEmailsL chunks ↔ ∃ c ∈ chunks, x ∈ pyFindallL c) := by
  refine ⟨fun hx => ?_, mem_findEmailsL chunks x⟩
  obtain ⟨c, _, hc⟩ := (mem_findEmailsL chunks x).mp hx
  exact pyFindallL_sound c x hc

/-- C3 witness: the amended theorem evaluated on the concrete chunk "x@y.zw". -/
theorem C3_amended_witness :
    ("x@y.zw" : String).data ∈ findEmailsL ["x@y.zw"]
    ∧ Accepts emailRe ("x@y.zw" : String).data := by
  have h := C3_amended_sound_and_complete ["x@y.zw"] ("x@y.zw" : String).data
  have hmem : ("x@y.zw" : String).data ∈ findEmailsL ["x@y.zw"] :=
    h.2.mpr ⟨"x@y.zw", by decide, by decide⟩
  exact ⟨hmem, h.1 hmem⟩

/-- C4 counterexample: the claim says partial results accumulated before a
mid-run failure are discarded. With prior state `[]` and a chunk sequence whose
first chunk yields "a@bc.de" and whose second fetch fails, the error is
surfaced but `self.emails` is left holding exactly the partial accumulation. -/
theorem C4_counterexample :
    (find_emails [] (.ok [.ok "a@bc.de", .error "boom"])).2 = .failure "boom"
    ∧ (find_emails [] (.ok [.ok "a@bc.de", .error "boom"])).1
        = [['a', '@', 'b', 'c', '.', 'd', 'e']] := by
  decide

/-- C4 amended: a single failure aborts the extraction (chunks after the failing
one are never processed — `rest` does not occur in the result) and surfaces the
error; a failure at open time leaves the stored email list exactly as it was,
but a chunk-level failure mid-run leaves the stored email list holding the
partial accumulation from the chunks already processed (the prior value having
been cleared at run start). -/
theorem C4_amended_failure_state (prior : List (List Char)) (e : String)
    (pre : List String) (rest : List (Except String String)) :
    find_emails prior (.error e) = (prior, .failure e)
    ∧ find_emails prior (.ok (pre.map .ok ++ .error e :: rest))
        = (pre.foldl (fun a c => a ++ pyFindallL c) [], .failure e) := by
  refine ⟨rfl, ?_⟩
  show processChunks [] (pre.map .ok ++ .error e :: rest)
      = (pre.foldl (fun a c => a ++ pyFindallL c) [], .failure e)
  exact processChunks_mid_error pre [] e rest

/-- C5: when a sidecar exists and verification returns false, `open_file`
reports the tamper warning and never starts the extraction thread (the Running
state is never reached). -/
theorem C5_tamper_blocks_extraction (fileBytes : List Nat) (sc : String)
    (h : verify_hash fileBytes sc = false) :
    open_file (some fileBytes) (some sc) = ⟨false, true⟩ := by
  show (if verify_hash fileBytes sc then (⟨true, false⟩ : OpenResult) else ⟨false, true⟩)
      = ⟨false, true⟩
  rw [h]
  simp

/-- C5 witness: concrete tampered input (file bytes "abc", sidecar content
"deadbeef"). -/
theorem C5_tamper_witness :
    verify_hash [97, 98, 99] "deadbeef" = false
    ∧ open_file (some [97, 98, 99]) (some "deadbeef") = ⟨false, true⟩ :=
  ⟨by decide, C5_tamper_blocks_extraction [97, 98, 99] "deadbeef" (by decide)⟩

set_option maxRecDepth 4096 in
/-- C6 counterexample: the claim says line 2 of the sidecar is the digest,
newline-terminated. At the concrete input (path "f.csv", file bytes "abc") the
written sidecar content ends with the final hex digit of the digest, not with a
newline: `generate_hash` writes the digest with no trailing newline. -/
theorem C6_counterexample :
    (sidecarContent "f.csv" (sha256hex [97, 98, 99])).data.getLast? = some 'd'
    ∧ ¬(sidecarContent "f.csv" (sha256hex [97, 98, 99])).data.getLast? = some '\n' := by
  decide

/-- C6 amended: the sidecar written by `generate_hash` (which overwrites
whatever was previously stored at `<path>.sha256`) consists of exactly two
lines: line 1 is "Hash sha256 for file: " followed by the source path, and
line 2 is the lowercase hexadecimal SHA-256 digest, with NO trailing newline. -/
theorem C6_amended_sidecar_format (fs : String → Option String) (path : String)
    (fileBytes : List Nat) (hpath : '\n' ∉ path.data) :
    generate_hash fs path fileBytes (path ++ ".sha256")
        = some (sidecarContent path (sha256hex fileBytes))
    ∧ splitLinesL (sidecarContent path (sha256hex fileBytes)).data
        = [("Hash sha256 for file: " ++ path).data, sha256hexL fileBytes]
    ∧ (sidecarContent path (sha256hex fileBytes)).data.getLast? ≠ some '\n' := by
  refine ⟨?_, ?_, sidecar_getLast_ne_nl path fileBytes⟩
  · show (if path ++ ".sha256" = path ++ ".sha256"
        then some (sidecarContent path (sha256hex fileBytes)) else fs (path ++ ".sha256"))
        = some (sidecarContent path (sha256hex fileBytes))
    rw [if_pos rfl]
  · rw [sidecar_data_split]
    have hnl : '\n' ∉ ("Hash sha256 for file: " ++ path).data := by
      rw [string_data_append]
      intro hmem
      rcases List.mem_append.mp hmem with hm | hm
      · revert hm
        decide
      · exact hpath hm
    rw [splitLinesL_append _ _ hnl,
      splitLinesL_no_nl _ (fun hh => sha256hexL_ne_nl fileBytes _ hh rfl)]

/-- C6 witness: the amended theorem evaluated at path "f.csv" and file bytes
"abc". -/
theorem C6_amended_witness :
    ('\n' ∉ ("f.csv" : String).data)
    ∧ (generate_hash (fun _ => none) "f.csv" [97, 98, 99] ("f.csv" ++ ".sha256")
          = some (sidecarContent "f.csv" (sha256hex [97, 98, 99]))
        ∧ splitLinesL (sidecarContent "f.csv" (sha256hex [97, 98, 99])).data
            = [("Hash sha256 for file: " ++ "f.csv").data, sha256hexL [97, 98, 99]]
        ∧ (sidecarContent "f.csv" (sha256hex [97, 98, 99])).data.getLast? ≠ some '\n') :=
  ⟨by decide, C6_amended_sidecar_format (fun _ => none) "f.csv" [97, 98, 99] (by decide)⟩

/-- C7: a save request issued while the stored email list is empty performs no
filesystem write, reports "No emails to save.", and leaves the stored state
unchanged, whatever destination the dialog would have produced. -/
theorem C7_empty_save_noop (chosen : Option String) :
    save_results [] chosen = ⟨none, "No emails to save.", []⟩ := rfl

/-- C8: a successful extraction run stores the deduplicated result, which
contains no duplicate entries regardless of the chunk contents. -/
theorem C8_success_no_duplicates (prior : List (List Char)) (chunkTexts : List String) :
    (find_emails prior (.ok (chunkTexts.map .ok))).1 = findEmailsL chunkTexts
    ∧ (find_emails prior (.ok (chunkTexts.map .ok))).1.Nodup := by
  have h : (find_emails prior (.ok (chunkTexts.map .ok))).1 = findEmailsL chunkTexts := by
    show (processChunks [] (chunkTexts.map .ok)).1 = findEmailsL chunkTexts
    rw [processChunks_all_ok]
    rfl
  exact ⟨h, h ▸ List.nodup_dedup _⟩

/-- C9: `verify_hash` returns true exactly when the lowercase hex SHA-256
digest of the file bytes equals the ENTIRE sidecar content with surrounding
whitespace stripped; in particular a sidecar holding the bare digest surrounded
by whitespace verifies true. -/
theorem C9_verify_is_whole_content_stripped :
    (∀ (fileBytes : List Nat) (sidecar : String),
        verify_hash fileBytes sidecar = true ↔ sha256hex fileBytes = pyStrip sidecar)
    ∧ verify_hash [97, 98, 99] (" " ++ sha256hex [97, 98, 99] ++ "\n") = true := by
  constructor
  · intro fileBytes sidecar
    unfold verify_hash
    exact beq_iff_eq
  · decide

/-- C10: when reading the CSV fails before any chunk is processed, the error
branch is taken and the previously stored email list is exactly as it was
before the call. -/
theorem C10_read_error_preserves_state (prior : List (List Char)) (e : String) :
    find_emails prior (.error e) = (prior, .failure e) := rfl

end FindEmailCSV
